import Mathlib

/-!
Shallow embedding of `tools/make_products.py` (Masterkartel/mastermind-store).

Strings are modelled as `List Char`.  Python's `str.strip` / `str.lower` are
modelled on the ASCII fragment (the script's data and all constants in the
source are ASCII).  Spreadsheet cell values are modelled by the inductive
`Cell`: `Cell.none` is Python `None`, `Cell.nan` is the pandas NaN placeholder
(whose `str()` is `"nan"`), `Cell.str` a text cell and `Cell.int` an integer
cell.  Decimal values produced by Python's `float()` are modelled exactly as a
pair `(n, k)` denoting the rational `n / 10^k`; rounding is round-half-to-even,
which is what Python's `round()` implements.
-/

namespace MakeProducts

/-- Python whitespace stripped by `str.strip()` (ASCII fragment):
space, tab, newline, carriage return, vertical tab, form feed. -/
def isPySpace (c : Char) : Bool :=
  c = ' ' ∨ c = '\t' ∨ c = '\n' ∨ c = '\r' ∨ c = Char.ofNat 11 ∨ c = Char.ofNat 12

/-- Model of `str.strip()`: drop whitespace from both ends. -/
def pyStrip (l : List Char) : List Char :=
  ((l.dropWhile isPySpace).reverse.dropWhile isPySpace).reverse

/-- Model of `str.lower()` (ASCII fragment): `Char.toLower` maps `'A'..'Z'`
to `'a'..'z'` and leaves everything else unchanged. -/
def pyLower (l : List Char) : List Char := l.map Char.toLower

/-- Model of `str.replace(",", "")`: remove every comma. -/
def removeCommas (l : List Char) : List Char := l.filter (fun c => c ≠ ',')

/-- Decimal digit character for a digit value `d < 10`. -/
def digitChar (d : Nat) : Char := Char.ofNat (48 + d)

/-- Little-endian decimal digit characters of `n`, with explicit fuel to keep
the recursion structural; `natToChars` supplies fuel `n + 1`, which is always
sufficient because the argument strictly decreases. -/
def natToCharsLE : Nat → Nat → List Char
  | 0, _ => []
  | fuel + 1, n => if n < 10 then [digitChar n] else digitChar (n % 10) :: natToCharsLE fuel (n / 10)

/-- Model of Python `str(n)` for a natural number: decimal notation. -/
def natToChars (n : Nat) : List Char := (natToCharsLE (n + 1) n).reverse

/-- Model of Python `str(n)` for an integer. -/
def intToChars (n : Int) : List Char :=
  if n < 0 then '-' :: natToChars n.natAbs else natToChars n.toNat

/-- Spreadsheet cell values, as the script can observe them through `str()`:
`none` is Python `None`, `nan` the pandas missing-value float (printed
`"nan"`, never parseable as a price), `str` a text cell, `int` an integer
cell. -/
inductive Cell where
  | none : Cell
  | nan : Cell
  | str : List Char → Cell
  | int : Int → Cell
deriving DecidableEq

/-- Model of Python `str(v)` on a cell value. -/
def cellToStr : Cell → List Char
  | Cell.none => ("None").data
  | Cell.nan => ("nan").data
  | Cell.str s => s
  | Cell.int n => intToChars n

/-! ## slugify (source lines 17–21) -/

/-- Character class `[a-z0-9]` of the slug regexes. -/
def isSlugChar (c : Char) : Bool := ('a' ≤ c ∧ c ≤ 'z') ∨ ('0' ≤ c ∧ c ≤ '9')

/-- Model of `re.sub(r"[^a-z0-9]+", "-", s)`: each maximal run of characters
outside `[a-z0-9]` becomes a single hyphen.  The Boolean state records whether
the previous character belonged to such a run (so the run's later characters
are dropped rather than emitting another hyphen). -/
def replAux : Bool → List Char → List Char
  | _, [] => []
  | inRun, c :: cs =>
    if isSlugChar c then c :: replAux false cs
    else if inRun then replAux true cs
    else '-' :: replAux true cs

/-- First substitution of `slugify`. -/
def replNonAlnum (l : List Char) : List Char := replAux false l

/-- Model of `re.sub(r"-+", "-", s)`: collapse runs of hyphens.  The Boolean
state records whether the previously emitted character was a hyphen. -/
def collapseAux : Bool → List Char → List Char
  | _, [] => []
  | afterHyphen, c :: cs =>
    if c = '-' then
      if afterHyphen then collapseAux true cs else '-' :: collapseAux true cs
    else c :: collapseAux false cs

/-- Second substitution of `slugify`. -/
def collapseHyphens (l : List Char) : List Char := collapseAux false l

/-- Model of `str.strip("-")`: drop hyphens from both ends. -/
def stripHyphens (l : List Char) : List Char :=
  ((l.dropWhile (fun c => c = '-')).reverse.dropWhile (fun c => c = '-')).reverse

/-- `slugify` (source lines 17–21): strip and lowercase, replace runs of
non-`[a-z0-9]` by single hyphens, collapse repeated hyphens, strip outer
hyphens, and fall back to `"item"` when the result is empty (`s or "item"`). -/
def slugify (s : List Char) : List Char :=
  let s1 := pyLower (pyStrip s)
  let s2 := replNonAlnum s1
  let s3 := stripHyphens (collapseHyphens s2)
  if s3 = [] then ("item").data else s3

/-! ## normalize_sku (source lines 23–29) -/

/-- `normalize_sku` (source lines 23–29): `None` becomes `""`; otherwise the
value is stringified and trimmed, kept verbatim when it equals `"1"` or
case-insensitively equals `"other"`, and replaced by `""` otherwise. -/
def normalize_sku (v : Cell) : List Char :=
  match v with
  | Cell.none => []
  | _ =>
    let s := pyStrip (cellToStr v)
    if s = ['1'] ∨ pyLower s = ("other").data then s else []

/-! ## to_int_price (source lines 31–36) -/

/-- Decimal digit predicate used by the `float()` grammar model. -/
def isDigitChar (c : Char) : Bool := '0' ≤ c ∧ c ≤ '9'

/-- Numeric value of a digit string (most significant first). -/
def digitsVal (l : List Char) : Nat := l.foldl (fun a c => 10 * a + (c.toNat - 48)) 0

/-- Optional leading sign of a Python float literal. -/
def parseSign : List Char → Int × List Char
  | '+' :: r => (1, r)
  | '-' :: r => (-1, r)
  | l => (1, l)

/-- Scaled-decimal values: `(n, k)` denotes the rational `n / 10^k`. -/
abbrev Dec := Int × Nat

/-- Mantissa of a float literal: `digits`, `digits '.' digits?`, or
`'.' digits`; returns its scaled-decimal value and the unconsumed rest. -/
def parseMantissa (l : List Char) : Option (Dec × List Char) :=
  let (ds, r1) := l.span isDigitChar
  match r1 with
  | '.' :: r2 =>
    let (fs, r3) := r2.span isDigitChar
    if ds = [] ∧ fs = [] then Option.none
    else some (((digitsVal (ds ++ fs) : Int), fs.length), r3)
  | _ => if ds = [] then Option.none else some (((digitsVal ds : Int), 0), r1)

/-- Apply a decimal exponent `e` to a scaled-decimal value. -/
def applyExp (d : Dec) (e : Int) : Dec :=
  if 0 ≤ e then (d.1 * (10 : Int) ^ e.toNat, d.2) else (d.1, d.2 + e.natAbs)

/-- Exponent tail of a float literal: a sign and a nonempty digit string that
must consume the whole rest. -/
def parseExpTail (m : Dec) (sg : Int) (r : List Char) : Option Dec :=
  let (es, r1) := parseSign r
  let (ds, r2) := r1.span isDigitChar
  if ds = [] ∨ r2 ≠ [] then Option.none
  else some (applyExp ((sg * m.1, m.2)) (es * (digitsVal ds : Int)))

/-- Model of Python `float()` on the decimal grammar
`[sign] (digits [. digits] | . digits) [(e|E) [sign] digits]`, returning the
exact scaled-decimal value.  Inputs `float()` accepts but `round()` then
rejects with an exception (`nan`, `inf`) are mapped to `Option.none`, which
makes `to_int_price` return `0` exactly as the `except` branch does. -/
def parseFloat (l : List Char) : Option Dec :=
  let (sg, l1) := parseSign l
  match parseMantissa l1 with
  | Option.none => Option.none
  | some (m, r) =>
    match r with
    | [] => some ((sg * m.1, m.2))
    | 'e' :: r2 => parseExpTail m sg r2
    | 'E' :: r2 => parseExpTail m sg r2
    | _ => Option.none

/-- The full coercion text pipeline of `to_int_price`:
`float(str(v).replace(",", "").strip())`, as an exact scaled decimal. -/
def parsePrice (v : Cell) : Option Dec := parseFloat (pyStrip (removeCommas (cellToStr v)))

/-- Integer power of ten (structural, kernel-evaluable). -/
def pow10 : Nat → Int
  | 0 => 1
  | k + 1 => 10 * pow10 k

/-- Round-half-to-even of the rational `n / 10^k`, computed with integer
floor division; this is the semantics of Python's `round()` on the parsed
value. -/
def roundHalfEven (n : Int) (k : Nat) : Int :=
  let d := pow10 k
  let f := Int.ediv n d
  let r := Int.emod n d
  if 2 * r < d then f
  else if d < 2 * r then f + 1
  else if Int.emod f 2 = 0 then f else f + 1

/-- `to_int_price` (source lines 31–36): strip commas and whitespace from the
stringified cell, parse as a decimal number and round to the nearest integer;
any failure (the `except` branch) yields `0`. -/
def to_int_price (v : Cell) : Int :=
  match parsePrice v with
  | some nk => roundHalfEven nk.1 nk.2
  | Option.none => 0

/-! ## Column resolution (source lines 46–61) -/

/-- Resolved column indices for the three logical fields. -/
structure ColMap where
  name : Option Nat
  sku : Option Nat
  price : Option Nat
deriving DecidableEq

/-- Header synonyms accepted for `name` (source line 50). -/
def nameSyns : List (List Char) := [("product").data, ("product name").data, ("name").data]

/-- Header synonyms accepted for `sku` (source line 52). -/
def skuSyns : List (List Char) := [("units").data, ("sku").data]

/-- Header synonyms accepted for `price` (source line 54). -/
def priceSyns : List (List Char) := [("retail").data, ("retail price").data, ("price").data]

/-- One iteration of the header loop (source lines 48–55): normalize the
label and assign the column index to the field whose synonym set contains it.
Note the assignment is unconditional, so a later matching column overwrites
an earlier one. -/
def resolveStep (m : ColMap) (i : Nat) (h : List Char) : ColMap :=
  let c := pyLower (pyStrip h)
  if c ∈ nameSyns then { m with name := some i }
  else if c ∈ skuSyns then { m with sku := some i }
  else if c ∈ priceSyns then { m with price := some i }
  else m

/-- The header loop, with `i` the index of the first header of the list. -/
def resolveAux (m : ColMap) (i : Nat) : List (List Char) → ColMap
  | [] => m
  | h :: t => resolveAux (resolveStep m i h) (i + 1) t

/-- Column resolution over the full header list (source lines 47–55). -/
def resolveCols (headers : List (List Char)) : ColMap :=
  resolveAux ⟨Option.none, Option.none, Option.none⟩ 0 headers

/-- The `missing` list of source lines 57–61, in the order `name, sku, price`. -/
def missingOf (m : ColMap) : List (List Char) :=
  (if m.name.isNone then [("name").data] else []) ++
    (if m.sku.isNone then [("sku").data] else []) ++
      (if m.price.isNone then [("price").data] else [])

/-! ## Row loop (source lines 63–91) -/

/-- An output product record (source lines 85–90). -/
structure Item where
  id : List Char
  name : List Char
  sku : List Char
  price : Int
deriving DecidableEq

/-- The state of the row loop: the accumulated `items` and the `seen_ids`
set, modelled as the list of ids in assignment order. -/
structure LoopState where
  items : List Item
  seen : List (List Char)
deriving DecidableEq

/-- The literal `"total"` of the summary-row filter (source line 68). -/
def totalChars : List Char := ("total").data

/-- The candidate identifiers tried for a base slug: `base` first, then
`base-2`, `base-3`, … (source lines 78–82: `uid = base_id`, then
`f"{base_id}-{n}"` for `n = 2, 3, …`). -/
def candSeq (base : List Char) : Nat → List Char
  | 0 => base
  | j + 1 => base ++ '-' :: natToChars (j + 2)

/-- The `while uid in seen_ids` loop (source lines 80–82), fuelled: `j` is
the index of the current candidate.  Fuel `seen.length + 1` always suffices —
the candidates are pairwise distinct, so at most `seen.length` of them can be
members of `seen` (`findFreshAux_spec` below), and the fuel-exhausted branch
is unreachable. -/
def findFreshAux (base : List Char) (seen : List (List Char)) : Nat → Nat → List Char
  | 0, j => candSeq base j
  | fuel + 1, j =>
    if candSeq base j ∈ seen then findFreshAux base seen fuel (j + 1) else candSeq base j

/-- The identifier chosen for `base` given the already-assigned ids. -/
def findFresh (base : List Char) (seen : List (List Char)) : List Char :=
  findFreshAux base seen (seen.length + 1) 0

/-- The `name` local of the row loop (source line 67):
`str(row[colmap["name"]]).strip()`.  Cells absent from a row (which pandas
fills with NaN) default to `Cell.nan`. -/
def rowName (ni : Nat) (row : List Cell) : List Char :=
  pyStrip (cellToStr (row.getD ni Cell.nan))

/-- The `sku` local of the row loop (source line 71). -/
def rowSku (si : Nat) (row : List Cell) : List Char :=
  normalize_sku (row.getD si Cell.nan)

/-- The `price` local of the row loop (source line 72). -/
def rowPrice (pi : Nat) (row : List Cell) : Int :=
  to_int_price (row.getD pi Cell.nan)

/-- One iteration of the row loop (source lines 66–90): filter on the trimmed
name (source line 68: `if not name or name.lower().startswith("total")`),
drop non-positive prices (source line 74), and otherwise emit a record under
a fresh identifier, recording it in `seen`. -/
def step (ni si pi : Nat) (st : LoopState) (row : List Cell) : LoopState :=
  if rowName ni row = [] ∨ totalChars.isPrefixOf (pyLower (rowName ni row)) = true then st
  else if rowPrice pi row ≤ 0 then st
  else
    let uid := findFresh (slugify (rowName ni row)) st.seen
    ⟨st.items ++ [⟨uid, rowName ni row, rowSku si row, rowPrice pi row⟩], st.seen ++ [uid]⟩

/-- The row loop from an arbitrary starting state. -/
def processFrom (ni si pi : Nat) (st : LoopState) (rows : List (List Cell)) : LoopState :=
  rows.foldl (step ni si pi) st

/-- The row loop as `main` runs it: empty `items`, empty `seen_ids`. -/
def processRows (ni si pi : Nat) (rows : List (List Cell)) : List Item :=
  (processFrom ni si pi ⟨[], []⟩ rows).items

/-- Result of `main` once the input file has been read. -/
inductive RunResult where
  | missingColumns : List (List Char) → RunResult
  | ok : List Item → RunResult
deriving DecidableEq

/-- `main` after loading the table (source lines 45–91): resolve columns,
abort with the missing-field report when one of `name`, `sku`, `price` is
unresolved, otherwise run the row loop. -/
def runCatalog (headers : List (List Char)) (rows : List (List Cell)) : RunResult :=
  let m := resolveCols headers
  match m.name, m.sku, m.price with
  | some ni, some si, some pi => RunResult.ok (processRows ni si pi rows)
  | _, _, _ => RunResult.missingColumns (missingOf m)

/-- Observable outcome of one invocation of the script. -/
structure ProgResult where
  exitCode : Nat
  printedUsage : Bool
  readInput : Bool
  output : Option (List Item)
deriving DecidableEq

/-- The whole script (source lines 11–15 and 38–97): the input path is the
module constant `XLSX_PATH`, and `sys.argv` is never consulted, so the run is
a function of the path's existence and the table alone; `argv` is threaded
through only to express that fact.  A missing file prints an error naming the
path and exits with status 1 before any input is read; the script prints no
usage message on any path. -/
def runProgram (argv : List (List Char)) (fileExists : Bool)
    (headers : List (List Char)) (rows : List (List Cell)) : ProgResult :=
  if fileExists = false then ⟨1, false, false, Option.none⟩
  else
    match runCatalog headers rows with
    | RunResult.missingColumns _ => ⟨1, false, true, Option.none⟩
    | RunResult.ok items => ⟨0, false, true, some items⟩

/-! ## Derived observation functions used by the verification statements -/

/-- Whether the row loop keeps a row: it passes the name filter and has a
positive coerced price. -/
def keptRow (ni pi : Nat) (row : List Cell) : Bool :=
  if rowName ni row = [] ∨ totalChars.isPrefixOf (pyLower (rowName ni row)) = true then false
  else if rowPrice pi row ≤ 0 then false
  else true

/-- The data a kept row contributes to its record, identifier aside. -/
def rowView (ni si pi : Nat) (row : List Cell) : List Char × List Char × Int :=
  (rowName ni row, rowSku si row, rowPrice pi row)

/-- The identifier-independent fields of a record. -/
def itemView (it : Item) : List Char × List Char × Int := (it.name, it.sku, it.price)

/-- Modelled from the spec's tie-break sentence, amended to what the code
does: the index of the last header (in column order) whose trimmed,
lowercased label belongs to the synonym set, with `i` the index of the first
header of the list. -/
def lastMatchIdxFrom (syns : List (List Char)) (i : Nat) : List (List Char) → Option Nat
  | [] => Option.none
  | h :: t =>
    match lastMatchIdxFrom syns (i + 1) t with
    | some j => some j
    | Option.none => if pyLower (pyStrip h) ∈ syns then some i else Option.none

/-- The last matching column index for a synonym set over the whole header
list. -/
def lastMatchIdx (syns : List (List Char)) (headers : List (List Char)) : Option Nat :=
  lastMatchIdxFrom syns 0 headers

/-- Decode little-endian decimal digit characters; left inverse of
`natToCharsLE`, used to prove decimal notation injective. -/
def ofDigitsLE : List Char → Nat
  | [] => 0
  | c :: cs => (c.toNat - 48) + 10 * ofDigitsLE cs

/-- Invariant of the row-loop state: `seen_ids` is exactly the list of
already-assigned identifiers in order, it has no duplicates, and every
record's identifier was chosen by the collision loop from its own base slug
against the identifiers assigned before it. -/
def stateInv (st : LoopState) : Prop :=
  st.seen = st.items.map Item.id ∧ st.seen.Nodup ∧
    ∀ i, (h : i < st.items.length) →
      (st.items.get ⟨i, h⟩).id =
        findFresh (slugify ((st.items.get ⟨i, h⟩).name)) ((st.items.take i).map Item.id)

/-- Three rows whose names are "a 2", "a", "a": the slug "a-2" of the first
row occupies the first suffix candidate of the colliding later rows. -/
def c1Rows : List (List Cell) :=
  [[Cell.str (("a 2").data), Cell.str (("1").data), Cell.str (("100").data)],
   [Cell.str (("a").data), Cell.str (("1").data), Cell.str (("100").data)],
   [Cell.str (("a").data), Cell.str (("1").data), Cell.str (("100").data)]]

/-- Whether a character list has no two adjacent hyphens. -/
def noAdjacentHyphens : List Char → Bool
  | [] => true
  | [_] => true
  | a :: b :: t => (!(a == '-' && b == '-')) && noAdjacentHyphens (b :: t)

/-- Structural invariant of a produced slug: nonempty, only `[a-z0-9]` and
hyphens, no two adjacent hyphens, and no hyphen at either end. -/
def goodSlug (s : List Char) : Prop :=
  s ≠ [] ∧ (∀ c ∈ s, isSlugChar c = true ∨ c = '-') ∧
    noAdjacentHyphens s = true ∧ s.head? ≠ some '-' ∧ s.getLast? ≠ some '-'

/-! ## Basic lemmas about the row loop -/

theorem step_name_skip (ni si pi : Nat) (st : LoopState) (row : List Cell)
    (h : rowName ni row = [] ∨ totalChars.isPrefixOf (pyLower (rowName ni row)) = true) :
    step ni si pi st row = st := by
  simp only [step]
  rw [if_pos h]

theorem step_price_skip (ni si pi : Nat) (st : LoopState) (row : List Cell)
    (hp : rowPrice pi row ≤ 0) :
    step ni si pi st row = st := by
  by_cases h1 : rowName ni row = [] ∨ totalChars.isPrefixOf (pyLower (rowName ni row)) = true
  · exact step_name_skip ni si pi st row h1
  · simp only [step]
    rw [if_neg h1, if_pos hp]

theorem step_emit (ni si pi : Nat) (st : LoopState) (row : List Cell)
    (h1 : ¬(rowName ni row = [] ∨ totalChars.isPrefixOf (pyLower (rowName ni row)) = true))
    (h2 : ¬(rowPrice pi row ≤ 0)) :
    step ni si pi st row =
      ⟨st.items ++ [⟨findFresh (slugify (rowName ni row)) st.seen, rowName ni row,
          rowSku si row, rowPrice pi row⟩],
        st.seen ++ [findFresh (slugify (rowName ni row)) st.seen]⟩ := by
  simp only [step]
  rw [if_neg h1, if_neg h2]

theorem processFrom_nil (ni si pi : Nat) (st : LoopState) :
    processFrom ni si pi st [] = st := rfl

theorem processFrom_cons (ni si pi : Nat) (st : LoopState) (r : List Cell)
    (rows : List (List Cell)) :
    processFrom ni si pi st (r :: rows) = processFrom ni si pi (step ni si pi st r) rows := rfl

theorem step_items_pos (ni si pi : Nat) (st : LoopState) (row : List Cell)
    (h : ∀ it ∈ st.items, 0 < it.price) :
    ∀ it ∈ (step ni si pi st row).items, 0 < it.price := by
  by_cases h1 : rowName ni row = [] ∨ totalChars.isPrefixOf (pyLower (rowName ni row)) = true
  · rw [step_name_skip ni si pi st row h1]; exact h
  · by_cases h2 : rowPrice pi row ≤ 0
    · rw [step_price_skip ni si pi st row h2]; exact h
    · rw [step_emit ni si pi st row h1 h2]
      intro it hit
      rcases List.mem_append.mp hit with hmem | hmem
      · exact h it hmem
      · rw [List.mem_singleton] at hmem
        subst hmem
        simp only []
        omega

theorem processFrom_items_pos (ni si pi : Nat) (rows : List (List Cell)) :
    ∀ st : LoopState, (∀ it ∈ st.items, 0 < it.price) →
      ∀ it ∈ (processFrom ni si pi st rows).items, 0 < it.price := by
  induction rows with
  | nil => intro st h; exact h
  | cons r rows ih =>
    intro st h
    rw [processFrom_cons]
    exact ih _ (step_items_pos ni si pi st r h)

/-! ## Claim theorems -/

/-- C4: for every input row whose name, converted to text and trimmed, is
empty or starts case-insensitively with "total", no record is produced (the
loop state is unchanged) and no error is raised (the step is total). -/
theorem c4_name_filter_skips (ni si pi : Nat) (st : LoopState) (row : List Cell)
    (h : rowName ni row = [] ∨ totalChars.isPrefixOf (pyLower (rowName ni row)) = true) :
    step ni si pi st row = st :=
  step_name_skip ni si pi st row h

theorem c4_witness :
    step 0 1 2 ⟨[], []⟩
        [Cell.str ((" Total sales ").data), Cell.str (("1").data), Cell.str (("100").data)] =
      ⟨[], []⟩ ∧
    step 0 1 2 ⟨[], []⟩ [Cell.str (("  ").data), Cell.str (("1").data), Cell.str (("100").data)] =
      ⟨[], []⟩ :=
  ⟨c4_name_filter_skips 0 1 2 ⟨[], []⟩
      [Cell.str ((" Total sales ").data), Cell.str (("1").data), Cell.str (("100").data)]
      (by decide),
   c4_name_filter_skips 0 1 2 ⟨[], []⟩
      [Cell.str (("  ").data), Cell.str (("1").data), Cell.str (("100").data)] (by decide)⟩

/-- C3: a row whose price cell fails to parse, or whose parsed price rounds
to an integer that is not positive, produces no record (the loop state is
unchanged) and raises no error, and every record of any run has a positive
price. -/
theorem c3_nonpositive_price_skips (ni si pi : Nat) (st : LoopState) (row : List Cell)
    (rows : List (List Cell)) (hp : rowPrice pi row ≤ 0) :
    step ni si pi st row = st ∧ ∀ it ∈ processRows ni si pi rows, 0 < it.price :=
  ⟨step_price_skip ni si pi st row hp,
   processFrom_items_pos ni si pi rows ⟨[], []⟩ (by intro it hit; cases hit)⟩

theorem c3_witness :
    step 0 1 2 ⟨[], []⟩
        [Cell.str (("Widget").data), Cell.str (("1").data), Cell.str (("abc").data)] =
      ⟨[], []⟩ ∧
    (0 : Int) <
      (Item.mk (("widget").data) (("Widget").data) (("1").data) 100).price :=
  ⟨(c3_nonpositive_price_skips 0 1 2 ⟨[], []⟩
      [Cell.str (("Widget").data), Cell.str (("1").data), Cell.str (("abc").data)]
      [] (by decide)).1,
   (c3_nonpositive_price_skips 0 1 2 ⟨[], []⟩
      [Cell.str (("Widget").data), Cell.str (("1").data), Cell.str (("abc").data)]
      [[Cell.str (("Widget").data), Cell.str (("1").data), Cell.str (("100").data)]]
      (by decide)).2
      (Item.mk (("widget").data) (("Widget").data) (("1").data) 100) (by decide)⟩

/-- C10: `to_int_price` is total by construction; every parse failure
(including `None` and NaN cells and non-numeric text) yields `0`,
comma-formatted numbers parse, and a non-positive coerced price makes the row
loop skip the row silently instead of aborting. -/
theorem c10_to_int_price_total (ni si pi : Nat) (st : LoopState) (row : List Cell) (v : Cell)
    (hfail : parsePrice v = Option.none) (hp : rowPrice pi row ≤ 0) :
    to_int_price v = 0 ∧ to_int_price Cell.none = 0 ∧ to_int_price Cell.nan = 0 ∧
      to_int_price (Cell.str (("1,200").data)) = 1200 ∧ step ni si pi st row = st :=
  ⟨by simp [to_int_price, hfail], by decide, by decide, by decide,
   step_price_skip ni si pi st row hp⟩

theorem c10_witness :
    to_int_price (Cell.str (("abc").data)) = 0 ∧ to_int_price Cell.none = 0 ∧
      to_int_price Cell.nan = 0 ∧ to_int_price (Cell.str (("1,200").data)) = 1200 ∧
      step 0 1 2 ⟨[], []⟩
          [Cell.str (("Widget").data), Cell.str (("1").data), Cell.str (("x9").data)] =
        ⟨[], []⟩ :=
  c10_to_int_price_total 0 1 2 ⟨[], []⟩
    [Cell.str (("Widget").data), Cell.str (("1").data), Cell.str (("x9").data)]
    (Cell.str (("abc").data)) (by decide) (by decide)

/-- C9 counterexample: with the command line empty (no positional argument)
and the configured file present, the script neither prints a usage message
nor exits with a non-zero status — it runs normally, because the input path
is the hard-coded constant `XLSX_PATH` and `sys.argv` is never read. -/
theorem c9_counterexample :
    ¬ (((runProgram [] true [("name").data, ("sku").data, ("price").data] []).printedUsage =
          true) ∧
        (runProgram [] true [("name").data, ("sku").data, ("price").data] []).exitCode ≠ 0) := by
  decide

/-- C9 amended: the program takes no command-line arguments at all — the
input path is a fixed module constant, so the run is independent of `argv` —
and when the file at that constant path does not exist it prints an error
naming the path and exits with status 1 before reading any input. -/
theorem c9_no_cli_argument (argv argv' : List (List Char)) (e : Bool)
    (headers : List (List Char)) (rows : List (List Cell)) :
    runProgram argv e headers rows = runProgram argv' e headers rows ∧
      runProgram argv false headers rows = ⟨1, false, false, Option.none⟩ :=
  ⟨rfl, rfl⟩

theorem normalize_sku_not_none (v : Cell) (hv : v ≠ Cell.none) :
    normalize_sku v =
      if pyStrip (cellToStr v) = ['1'] ∨ pyLower (pyStrip (cellToStr v)) = ("other").data
      then pyStrip (cellToStr v) else [] := by
  cases v with
  | none => exact absurd rfl hv
  | nan => rfl
  | str s => rfl
  | int n => rfl

theorem normalize_sku_props (v : Cell) (hv : v ≠ Cell.none) :
    (normalize_sku v = ['1'] ↔ pyStrip (cellToStr v) = ['1']) ∧
      (pyLower (pyStrip (cellToStr v)) = ("other").data →
        normalize_sku v = pyStrip (cellToStr v)) ∧
      (pyStrip (cellToStr v) ≠ ['1'] → pyLower (pyStrip (cellToStr v)) ≠ ("other").data →
        normalize_sku v = []) := by
  rw [normalize_sku_not_none v hv]
  refine ⟨?_, ?_, ?_⟩
  · split_ifs with hc
    · exact Iff.rfl
    · push_neg at hc
      constructor
      · intro hx
        exact absurd hx (by decide)
      · intro hx
        exact absurd hx hc.1
  · intro h
    rw [if_pos (Or.inr h)]
  · intro h1 h2
    rw [if_neg]
    intro hor
    exact hor.elim h1 h2

/-- C7: `normalize_sku` stringifies and trims its input, returns `"1"`
exactly when the trimmed text is `"1"`, returns the trimmed text with its
original casing when it case-insensitively equals `"other"`, and returns the
empty string for every other value. -/
theorem c7_normalize_sku (v : Cell) :
    normalize_sku (Cell.str (("1").data)) = ("1").data ∧
      normalize_sku (Cell.str (("Other").data)) = ("Other").data ∧
      normalize_sku (Cell.str (("5").data)) = [] ∧
      normalize_sku (Cell.str []) = [] ∧
      (normalize_sku v = ['1'] ↔ pyStrip (cellToStr v) = ['1']) ∧
      (pyLower (pyStrip (cellToStr v)) = ("other").data →
        normalize_sku v = pyStrip (cellToStr v)) ∧
      (pyStrip (cellToStr v) ≠ ['1'] → pyLower (pyStrip (cellToStr v)) ≠ ("other").data →
        normalize_sku v = []) := by
  have h : (normalize_sku v = ['1'] ↔ pyStrip (cellToStr v) = ['1']) ∧
      (pyLower (pyStrip (cellToStr v)) = ("other").data →
        normalize_sku v = pyStrip (cellToStr v)) ∧
      (pyStrip (cellToStr v) ≠ ['1'] → pyLower (pyStrip (cellToStr v)) ≠ ("other").data →
        normalize_sku v = []) := by
    cases v with
    | none => exact ⟨by decide, by decide, by decide⟩
    | nan => exact normalize_sku_props Cell.nan (by decide)
    | str s => exact normalize_sku_props (Cell.str s) (fun hx => by cases hx)
    | int n => exact normalize_sku_props (Cell.int n) (fun hx => by cases hx)
  exact ⟨by decide, by decide, by decide, by decide, h.1, h.2.1, h.2.2⟩

theorem c7_witness :
    normalize_sku (Cell.str ((" Other ").data)) = ("Other").data ∧
      normalize_sku (Cell.int 7) = [] :=
  ⟨(c7_normalize_sku (Cell.str ((" Other ").data))).2.2.2.2.2.1 (by decide),
   (c7_normalize_sku (Cell.int 7)).2.2.2.2.2.2 (by decide) (by decide)⟩

/-! ## Rounding is round-to-nearest -/

theorem pow10_pos (k : Nat) : (0 : Int) < pow10 k := by
  induction k with
  | zero => decide
  | succ k ih => simp only [pow10]; omega

theorem pow10_cast (k : Nat) : ((pow10 k : Int) : ℚ) = (10 : ℚ) ^ k := by
  induction k with
  | zero => norm_num [pow10]
  | succ k ih =>
    simp only [pow10, pow_succ]
    push_cast
    rw [ih]
    ring

theorem abs_div_sub_le_half (n d f r : Int) (hd : 0 < d) (heq : d * f + r = n)
    (h0 : 0 ≤ r) (h2 : 2 * r ≤ d) :
    |(n : ℚ) / (d : ℚ) - (f : ℚ)| ≤ 1 / 2 := by
  have hdq : (0 : ℚ) < (d : ℚ) := by exact_mod_cast hd
  have hq : (n : ℚ) = (d : ℚ) * (f : ℚ) + (r : ℚ) := by exact_mod_cast heq.symm
  have key : (n : ℚ) / (d : ℚ) - (f : ℚ) = (r : ℚ) / (d : ℚ) := by
    rw [hq]
    field_simp
  rw [key, abs_le]
  have h0q : (0 : ℚ) ≤ (r : ℚ) := by exact_mod_cast h0
  have h2q : 2 * (r : ℚ) ≤ (d : ℚ) := by exact_mod_cast h2
  constructor
  · rw [le_div_iff₀ hdq]
    linarith
  · rw [div_le_iff₀ hdq]
    linarith

theorem abs_div_sub_le_half' (n d f r : Int) (hd : 0 < d) (heq : d * f + r = n)
    (hrd : r < d) (h2 : d ≤ 2 * r) :
    |(n : ℚ) / (d : ℚ) - ((f : ℚ) + 1)| ≤ 1 / 2 := by
  have hdq : (0 : ℚ) < (d : ℚ) := by exact_mod_cast hd
  have hq : (n : ℚ) = (d : ℚ) * (f : ℚ) + (r : ℚ) := by exact_mod_cast heq.symm
  have key : (n : ℚ) / (d : ℚ) - ((f : ℚ) + 1) = ((r : ℚ) - (d : ℚ)) / (d : ℚ) := by
    rw [hq]
    field_simp
    ring
  rw [key, abs_le]
  have hrdq : (r : ℚ) < (d : ℚ) := by exact_mod_cast hrd
  have h2q : (d : ℚ) ≤ 2 * (r : ℚ) := by exact_mod_cast h2
  constructor
  · rw [le_div_iff₀ hdq]
    linarith
  · rw [div_le_iff₀ hdq]
    linarith

theorem roundHalfEven_nearest (n : Int) (k : Nat) :
    |(n : ℚ) / (10 : ℚ) ^ k - (roundHalfEven n k : ℚ)| ≤ 1 / 2 := by
  have hd : (0 : Int) < pow10 k := pow10_pos k
  have heq : pow10 k * Int.ediv n (pow10 k) + Int.emod n (pow10 k) = n :=
    Int.ediv_add_emod n (pow10 k)
  have h0 : (0 : Int) ≤ Int.emod n (pow10 k) := Int.emod_nonneg n (by omega)
  have hrd : Int.emod n (pow10 k) < pow10 k := Int.emod_lt_of_pos n hd
  rw [← pow10_cast k]
  simp only [roundHalfEven]
  split_ifs with h1 h2 h3
  · exact abs_div_sub_le_half n (pow10 k) _ _ hd heq h0 (by omega)
  · push_cast
    exact abs_div_sub_le_half' n (pow10 k) _ _ hd heq hrd (by omega)
  · exact abs_div_sub_le_half n (pow10 k) _ _ hd heq h0 (by omega)
  · push_cast
    exact abs_div_sub_le_half' n (pow10 k) _ _ hd heq hrd (by omega)

/-- C8: price coercion strips the commas and surrounding whitespace from the
textual cell value, parses the result as a decimal number and rounds it to
the nearest integer (ties to even); `"1,200.40"` coerces to `1200`, and
`"abc"` is a parse failure, so a row carrying it is dropped. -/
theorem c8_price_coercion (v : Cell) (n : Int) (k : Nat)
    (hparse : parsePrice v = some (n, k)) :
    to_int_price (Cell.str (("1,200.40").data)) = 1200 ∧
      to_int_price (Cell.str (("abc").data)) = 0 ∧
      parsePrice (Cell.str (("abc").data)) = Option.none ∧
      step 0 1 2 ⟨[], []⟩ [Cell.str (("x").data), Cell.nan, Cell.str (("abc").data)] =
        ⟨[], []⟩ ∧
      to_int_price v = roundHalfEven n k ∧
      |(n : ℚ) / (10 : ℚ) ^ k - (to_int_price v : ℚ)| ≤ 1 / 2 := by
  have hti : to_int_price v = roundHalfEven n k := by
    simp [to_int_price, hparse]
  exact ⟨by decide, by decide, by decide, step_price_skip 0 1 2 ⟨[], []⟩ _ (by decide),
    hti, by rw [hti]; exact roundHalfEven_nearest n k⟩

theorem c8_witness :
    to_int_price (Cell.str (("1,200.40").data)) = 1200 ∧
      |((120040 : Int) : ℚ) / (10 : ℚ) ^ 2 -
          ((to_int_price (Cell.str (("1,200.40").data)) : Int) : ℚ)| ≤ 1 / 2 :=
  ⟨(c8_price_coercion (Cell.str (("1,200.40").data)) 120040 2 (by decide)).1,
   (c8_price_coercion (Cell.str (("1,200.40").data)) 120040 2 (by decide)).2.2.2.2.2⟩

/-! ## Column resolution: the last matching header wins -/

theorem disjNameSku (c : List Char) (h1 : c ∈ nameSyns) (h2 : c ∈ skuSyns) : False := by
  simp only [nameSyns, List.mem_cons, List.not_mem_nil, or_false] at h1
  rcases h1 with rfl | rfl | rfl <;> exact absurd h2 (by decide)

theorem disjNamePrice (c : List Char) (h1 : c ∈ nameSyns) (h2 : c ∈ priceSyns) : False := by
  simp only [nameSyns, List.mem_cons, List.not_mem_nil, or_false] at h1
  rcases h1 with rfl | rfl | rfl <;> exact absurd h2 (by decide)

theorem disjSkuPrice (c : List Char) (h1 : c ∈ skuSyns) (h2 : c ∈ priceSyns) : False := by
  simp only [skuSyns, List.mem_cons, List.not_mem_nil, or_false] at h1
  rcases h1 with rfl | rfl <;> exact absurd h2 (by decide)

theorem resolveStep_name (m : ColMap) (i : Nat) (h : List Char) :
    (resolveStep m i h).name =
      if pyLower (pyStrip h) ∈ nameSyns then some i else m.name := by
  simp only [resolveStep]
  split_ifs <;> rfl

theorem resolveStep_sku (m : ColMap) (i : Nat) (h : List Char) :
    (resolveStep m i h).sku =
      if pyLower (pyStrip h) ∈ skuSyns then some i else m.sku := by
  simp only [resolveStep]
  split_ifs <;>
    first
      | rfl
      | exact (disjNameSku _ ‹pyLower (pyStrip h) ∈ nameSyns›
          ‹pyLower (pyStrip h) ∈ skuSyns›).elim

theorem resolveStep_price (m : ColMap) (i : Nat) (h : List Char) :
    (resolveStep m i h).price =
      if pyLower (pyStrip h) ∈ priceSyns then some i else m.price := by
  simp only [resolveStep]
  split_ifs <;>
    first
      | rfl
      | exact (disjNamePrice _ ‹pyLower (pyStrip h) ∈ nameSyns›
          ‹pyLower (pyStrip h) ∈ priceSyns›).elim
      | exact (disjSkuPrice _ ‹pyLower (pyStrip h) ∈ skuSyns›
          ‹pyLower (pyStrip h) ∈ priceSyns›).elim

theorem resolveAux_name (t : List (List Char)) : ∀ (m : ColMap) (i : Nat),
    (resolveAux m i t).name =
      match lastMatchIdxFrom nameSyns i t with
      | some j => some j
      | Option.none => m.name := by
  induction t with
  | nil => intro m i; rfl
  | cons h t ih =>
    intro m i
    simp only [resolveAux, lastMatchIdxFrom]
    rw [ih]
    cases hm : lastMatchIdxFrom nameSyns (i + 1) t with
    | none =>
      rw [resolveStep_name]
      split_ifs <;> rfl
    | some j => rfl

theorem resolveAux_sku (t : List (List Char)) : ∀ (m : ColMap) (i : Nat),
    (resolveAux m i t).sku =
      match lastMatchIdxFrom skuSyns i t with
      | some j => some j
      | Option.none => m.sku := by
  induction t with
  | nil => intro m i; rfl
  | cons h t ih =>
    intro m i
    simp only [resolveAux, lastMatchIdxFrom]
    rw [ih]
    cases hm : lastMatchIdxFrom skuSyns (i + 1) t with
    | none =>
      rw [resolveStep_sku]
      split_ifs <;> rfl
    | some j => rfl

theorem resolveAux_price (t : List (List Char)) : ∀ (m : ColMap) (i : Nat),
    (resolveAux m i t).price =
      match lastMatchIdxFrom priceSyns i t with
      | some j => some j
      | Option.none => m.price := by
  induction t with
  | nil => intro m i; rfl
  | cons h t ih =>
    intro m i
    simp only [resolveAux, lastMatchIdxFrom]
    rw [ih]
    cases hm : lastMatchIdxFrom priceSyns (i + 1) t with
    | none =>
      rw [resolveStep_price]
      split_ifs <;> rfl
    | some j => rfl

/-- C2 counterexample: with headers `["product", "name"]`, both of which
belong to the `name` synonym set, the resolver selects column 1 — the last
match — not column 0, because the loop body assigns unconditionally. -/
theorem c2_counterexample :
    (resolveCols [("product").data, ("name").data]).name = some 1 ∧
      (resolveCols [("product").data, ("name").data]).name ≠ some 0 := by
  decide

/-- C2 amended: when several header labels normalize into the same logical
field's synonym set, the resolver selects the LAST matching header in column
order, for each of the three fields. -/
theorem c2_resolver_last_match (headers : List (List Char)) :
    (resolveCols headers).name = lastMatchIdx nameSyns headers ∧
      (resolveCols headers).sku = lastMatchIdx skuSyns headers ∧
      (resolveCols headers).price = lastMatchIdx priceSyns headers := by
  refine ⟨?_, ?_, ?_⟩
  · simp only [resolveCols, lastMatchIdx, resolveAux_name]
    cases lastMatchIdxFrom nameSyns 0 headers <;> rfl
  · simp only [resolveCols, lastMatchIdx, resolveAux_sku]
    cases lastMatchIdxFrom skuSyns 0 headers <;> rfl
  · simp only [resolveCols, lastMatchIdx, resolveAux_price]
    cases lastMatchIdxFrom priceSyns 0 headers <;> rfl

/-! ## Order preservation -/

theorem keptRow_false_name (ni pi : Nat) (row : List Cell)
    (h1 : rowName ni row = [] ∨ totalChars.isPrefixOf (pyLower (rowName ni row)) = true) :
    keptRow ni pi row = false := by
  simp only [keptRow]
  rw [if_pos h1]

theorem keptRow_false_price (ni pi : Nat) (row : List Cell)
    (h1 : ¬(rowName ni row = [] ∨ totalChars.isPrefixOf (pyLower (rowName ni row)) = true))
    (h2 : rowPrice pi row ≤ 0) :
    keptRow ni pi row = false := by
  simp only [keptRow]
  rw [if_neg h1, if_pos h2]

theorem keptRow_true (ni pi : Nat) (row : List Cell)
    (h1 : ¬(rowName ni row = [] ∨ totalChars.isPrefixOf (pyLower (rowName ni row)) = true))
    (h2 : ¬(rowPrice pi row ≤ 0)) :
    keptRow ni pi row = true := by
  simp only [keptRow]
  rw [if_neg h1, if_neg h2]

theorem step_items_view (ni si pi : Nat) (st : LoopState) (row : List Cell) :
    (step ni si pi st row).items.map itemView =
      st.items.map itemView ++
        (if keptRow ni pi row then [rowView ni si pi row] else []) := by
  by_cases h1 : rowName ni row = [] ∨ totalChars.isPrefixOf (pyLower (rowName ni row)) = true
  · rw [step_name_skip ni si pi st row h1, keptRow_false_name ni pi row h1]
    simp
  · by_cases h2 : rowPrice pi row ≤ 0
    · rw [step_price_skip ni si pi st row h2, keptRow_false_price ni pi row h1 h2]
      simp
    · rw [step_emit ni si pi st row h1 h2, keptRow_true ni pi row h1 h2]
      simp [itemView, rowView]

theorem processFrom_items_view (ni si pi : Nat) (rows : List (List Cell)) :
    ∀ st : LoopState,
      (processFrom ni si pi st rows).items.map itemView =
        st.items.map itemView ++ (rows.filter (keptRow ni pi)).map (rowView ni si pi) := by
  induction rows with
  | nil => intro st; simp [processFrom]
  | cons r rows ih =>
    intro st
    rw [processFrom_cons, ih, step_items_view]
    by_cases hk : keptRow ni pi r
    · simp [List.filter_cons, hk]
    · simp [List.filter_cons, hk]

/-- C5: the output preserves input row order — each row passing the name
filter and the positive-price filter contributes exactly one record, in the
same relative order as the source rows, and dropped rows cause no
reordering: the identifier-independent fields of the output are exactly the
kept rows' data, in order. -/
theorem c5_order_preserved (ni si pi : Nat) (rows : List (List Cell)) :
    (processRows ni si pi rows).map itemView =
      (rows.filter (keptRow ni pi)).map (rowView ni si pi) := by
  have h := processFrom_items_view ni si pi rows ⟨[], []⟩
  simpa using h

/-! ## Structure of produced slugs -/

theorem replAux_chars (l : List Char) :
    ∀ (b : Bool), ∀ c ∈ replAux b l, isSlugChar c = true ∨ c = '-' := by
  induction l with
  | nil => intro b c hc; cases hc
  | cons a t ih =>
    intro b c hc
    simp only [replAux] at hc
    by_cases ha : isSlugChar a
    · rw [if_pos ha] at hc
      rcases List.mem_cons.mp hc with rfl | hc
      · exact Or.inl ha
      · exact ih false c hc
    · rw [if_neg ha] at hc
      cases b with
      | true => exact ih true c hc
      | false =>
        rcases List.mem_cons.mp hc with rfl | hc
        · exact Or.inr rfl
        · exact ih true c hc

theorem collapseAux_subset (l : List Char) : ∀ (b : Bool), ∀ c ∈ collapseAux b l, c ∈ l := by
  induction l with
  | nil => intro b c hc; cases hc
  | cons a t ih =>
    intro b c hc
    simp only [collapseAux] at hc
    by_cases ha : a = '-'
    · rw [if_pos ha] at hc
      cases b with
      | true => exact List.mem_cons_of_mem a (ih true c hc)
      | false =>
        rcases List.mem_cons.mp hc with rfl | hc
        · rw [ha]
          exact List.mem_cons_self _ t
        · exact List.mem_cons_of_mem a (ih true c hc)
    · rw [if_neg ha] at hc
      rcases List.mem_cons.mp hc with rfl | hc
      · exact List.mem_cons_self c t
      · exact List.mem_cons_of_mem a (ih false c hc)

theorem collapseAux_head (l : List Char) : ∀ c ∈ (collapseAux true l).head?, c ≠ '-' := by
  induction l with
  | nil => intro c hc; cases hc
  | cons a t ih =>
    intro c hc
    simp only [collapseAux] at hc
    by_cases ha : a = '-'
    · rw [if_pos ha] at hc
      exact ih c hc
    · rw [if_neg ha] at hc
      rw [List.head?_cons, Option.mem_some_iff] at hc
      subst hc
      exact ha

theorem collapseAux_chain (l : List Char) :
    ∀ (b : Bool), List.Chain' (fun a b' => a ≠ '-' ∨ b' ≠ '-') (collapseAux b l) := by
  induction l with
  | nil => intro b; simp [collapseAux]
  | cons a t ih =>
    intro b
    simp only [collapseAux]
    by_cases ha : a = '-'
    · rw [if_pos ha]
      cases b with
      | true => exact ih true
      | false =>
        show List.Chain' (fun a b' => a ≠ '-' ∨ b' ≠ '-') ('-' :: collapseAux true t)
        rw [List.chain'_cons']
        exact ⟨fun y hy => Or.inr (collapseAux_head t y hy), ih true⟩
    · rw [if_neg ha]
      rw [List.chain'_cons']
      exact ⟨fun y hy => Or.inl ha, ih false⟩

theorem head_dropWhile_ne (p : Char → Bool) (l : List Char) :
    ∀ c ∈ (l.dropWhile p).head?, p c = false := by
  induction l with
  | nil => intro c hc; cases hc
  | cons a t ih =>
    intro c hc
    rw [List.dropWhile_cons] at hc
    by_cases ha : p a = true
    · rw [if_pos ha] at hc
      exact ih c hc
    · rw [if_neg ha] at hc
      rw [List.head?_cons, Option.mem_some_iff] at hc
      subst hc
      simpa using ha

theorem getLast_dropWhile_ne (p : Char → Bool) (l : List Char)
    (h : ∀ c ∈ l.getLast?, p c = false) :
    ∀ c ∈ (l.dropWhile p).getLast?, p c = false := by
  induction l with
  | nil => intro c hc; cases hc
  | cons a t ih =>
    intro c hc
    rw [List.dropWhile_cons] at hc
    by_cases ha : p a = true
    · rw [if_pos ha] at hc
      rcases ht : t with _ | ⟨b, t2⟩
      · subst ht; cases hc
      · subst ht
        refine ih ?_ c hc
        intro c2 hc2
        refine h c2 ?_
        rwa [List.getLast?_cons_cons]
    · rw [if_neg ha] at hc
      exact h c hc

theorem stripHyphens_subset (l : List Char) : ∀ c ∈ stripHyphens l, c ∈ l := by
  intro c hc
  simp only [stripHyphens, List.mem_reverse] at hc
  have h1 : c ∈ (l.dropWhile (fun c => c = '-')).reverse :=
    (List.dropWhile_sublist _).subset hc
  rw [List.mem_reverse] at h1
  exact (List.dropWhile_sublist _).subset h1

theorem stripHyphens_chain (l : List Char)
    (h : List.Chain' (fun a b => a ≠ '-' ∨ b ≠ '-') l) :
    List.Chain' (fun a b => a ≠ '-' ∨ b ≠ '-') (stripHyphens l) := by
  have flipped : ∀ (m : List Char), List.Chain' (fun a b => a ≠ '-' ∨ b ≠ '-') m →
      List.Chain' (fun a b => a ≠ '-' ∨ b ≠ '-') m.reverse := by
    intro m hm
    rw [List.chain'_reverse]
    exact hm.imp fun a b hr => Or.symm hr
  have h1 : List.Chain' (fun a b => a ≠ '-' ∨ b ≠ '-') (l.dropWhile (fun c => c = '-')) :=
    h.suffix (List.dropWhile_suffix _)
  have h2 : List.Chain' (fun a b => a ≠ '-' ∨ b ≠ '-')
      ((l.dropWhile (fun c => c = '-')).reverse.dropWhile (fun c => c = '-')) :=
    (flipped _ h1).suffix (List.dropWhile_suffix _)
  exact flipped _ h2

theorem stripHyphens_head (l : List Char) : ∀ c ∈ (stripHyphens l).head?, c ≠ '-' := by
  intro c hc
  simp only [stripHyphens] at hc
  rw [List.head?_reverse] at hc
  have hlast : ∀ c2 ∈ (l.dropWhile (fun c => c = '-')).reverse.getLast?,
      (fun c => decide (c = '-')) c2 = false := by
    rw [List.getLast?_reverse]
    exact head_dropWhile_ne _ l
  have := getLast_dropWhile_ne _ _ hlast c hc
  simpa using this

theorem stripHyphens_last (l : List Char) : ∀ c ∈ (stripHyphens l).getLast?, c ≠ '-' := by
  intro c hc
  simp only [stripHyphens] at hc
  rw [List.getLast?_reverse] at hc
  have := head_dropWhile_ne _ _ c hc
  simpa using this

theorem noAdjacentHyphens_of_chain (l : List Char)
    (h : List.Chain' (fun a b => a ≠ '-' ∨ b ≠ '-') l) : noAdjacentHyphens l = true := by
  induction l with
  | nil => rfl
  | cons a t ih =>
    cases t with
    | nil => rfl
    | cons b t2 =>
      rw [List.chain'_cons] at h
      have h2 := ih h.2
      rcases h.1 with hne | hne <;> simp [noAdjacentHyphens, hne, h2]

theorem goodSlug_slugify (s : List Char) : goodSlug (slugify s) := by
  simp only [slugify]
  by_cases hε : stripHyphens (collapseHyphens (replNonAlnum (pyLower (pyStrip s)))) = []
  · rw [if_pos hε]
    exact ⟨by decide, by decide, by decide, by decide, by decide⟩
  · rw [if_neg hε]
    refine ⟨hε, ?_, ?_, ?_, ?_⟩
    · intro c hc
      have h1 := stripHyphens_subset _ c hc
      have h2 := collapseAux_subset _ false c h1
      exact replAux_chars _ false c h2
    · exact noAdjacentHyphens_of_chain _
        (stripHyphens_chain _ (collapseAux_chain _ false))
    · intro heq
      exact stripHyphens_head _ '-' (by rw [Option.mem_def]; exact heq) rfl
    · intro heq
      exact stripHyphens_last _ '-' (by rw [Option.mem_def]; exact heq) rfl

/-- C6: `slugify` trims and lowercases its input, turns every maximal run of
characters outside `[a-z0-9]` into a single hyphen, collapses repeated
hyphens, strips outer hyphens, and falls back to `"item"` on an empty
result: the two spec evaluations hold, and every produced slug is nonempty,
uses only `[a-z0-9]` and hyphens, has no adjacent hyphens, and neither
starts nor ends with a hyphen. -/
theorem c6_slugify :
    slugify (("Coca-Cola 500ml").data) = ("coca-cola-500ml").data ∧
      slugify (("???").data) = ("item").data ∧ ∀ s, goodSlug (slugify s) :=
  ⟨by decide, by decide, goodSlug_slugify⟩

/-! ## Identifier uniqueness -/

theorem digitChar_toNat : ∀ d, d < 10 → (digitChar d).toNat = 48 + d := by decide

theorem ofDigitsLE_natToCharsLE : ∀ (fuel n : Nat), n < fuel →
    ofDigitsLE (natToCharsLE fuel n) = n := by
  intro fuel
  induction fuel with
  | zero => intro n h; omega
  | succ fuel ih =>
    intro n h
    simp only [natToCharsLE]
    by_cases h10 : n < 10
    · rw [if_pos h10]
      simp only [ofDigitsLE]
      rw [digitChar_toNat n h10]
      omega
    · rw [if_neg h10]
      simp only [ofDigitsLE]
      have hdiv : n / 10 < fuel := by
        have := Nat.div_lt_self (show 0 < n by omega) (show 1 < 10 by omega)
        omega
      rw [ih (n / 10) hdiv, digitChar_toNat (n % 10) (Nat.mod_lt n (by omega))]
      omega

theorem natToChars_injective : Function.Injective natToChars := by
  intro a b h
  simp only [natToChars] at h
  rw [List.reverse_inj] at h
  have ha := ofDigitsLE_natToCharsLE (a + 1) a (by omega)
  have hb := ofDigitsLE_natToCharsLE (b + 1) b (by omega)
  rw [← ha, ← hb, h]

theorem candSeq_injective (base : List Char) : Function.Injective (candSeq base) := by
  intro j k h
  cases j with
  | zero =>
    cases k with
    | zero => rfl
    | succ k =>
      exfalso
      have hl := congrArg List.length h
      simp only [candSeq, List.length_append, List.length_cons] at hl
      omega
  | succ j =>
    cases k with
    | zero =>
      exfalso
      have hl := congrArg List.length h
      simp only [candSeq, List.length_append, List.length_cons] at hl
      omega
    | succ k =>
      simp only [candSeq] at h
      have h2 := List.append_cancel_left h
      injection h2 with _ h3
      have h4 := natToChars_injective h3
      omega

theorem findFreshAux_spec (base : List Char) (seen : List (List Char)) :
    ∀ (fuel j : Nat), fuel + j = seen.length + 1 →
      (∀ i < j, candSeq base i ∈ seen) →
      ∃ m, j ≤ m ∧ findFreshAux base seen fuel j = candSeq base m ∧
        candSeq base m ∉ seen ∧ ∀ i < m, candSeq base i ∈ seen := by
  intro fuel
  induction fuel with
  | zero =>
    intro j hfj hall
    exfalso
    have hnodup : ((List.range j).map (candSeq base)).Nodup :=
      (List.nodup_range j).map (candSeq_injective base)
    have hsub : (List.range j).map (candSeq base) ⊆ seen := by
      intro x hx
      rw [List.mem_map] at hx
      obtain ⟨i, hi, rfl⟩ := hx
      exact hall i (List.mem_range.mp hi)
    have hle := (hnodup.subperm hsub).length_le
    rw [List.length_map, List.length_range] at hle
    omega
  | succ fuel ih =>
    intro j hfj hall
    simp only [findFreshAux]
    by_cases hmem : candSeq base j ∈ seen
    · rw [if_pos hmem]
      obtain ⟨m, hm1, hm2, hm3, hm4⟩ := ih (j + 1) (by omega) (by
        intro i hi
        rcases Nat.lt_succ_iff_lt_or_eq.mp hi with hlt | rfl
        · exact hall i hlt
        · exact hmem)
      exact ⟨m, by omega, hm2, hm3, hm4⟩
    · rw [if_neg hmem]
      exact ⟨j, Nat.le_refl j, rfl, hmem, hall⟩

theorem findFresh_spec (base : List Char) (seen : List (List Char)) :
    ∃ m, findFresh base seen = candSeq base m ∧ candSeq base m ∉ seen ∧
      ∀ i < m, candSeq base i ∈ seen := by
  obtain ⟨m, _, h2, h3, h4⟩ :=
    findFreshAux_spec base seen (seen.length + 1) 0 (by omega)
      (fun i hi => absurd hi (by omega))
  exact ⟨m, h2, h3, h4⟩

theorem findFresh_not_mem (base : List Char) (seen : List (List Char)) :
    findFresh base seen ∉ seen := by
  obtain ⟨m, h2, h3, _⟩ := findFresh_spec base seen
  rw [h2]
  exact h3

theorem stateInv_empty : stateInv ⟨[], []⟩ :=
  ⟨rfl, List.nodup_nil, fun i h => absurd h (by simp)⟩

theorem step_inv (ni si pi : Nat) (st : LoopState) (row : List Cell)
    (h : stateInv st) : stateInv (step ni si pi st row) := by
  by_cases h1 : rowName ni row = [] ∨ totalChars.isPrefixOf (pyLower (rowName ni row)) = true
  · rwa [step_name_skip ni si pi st row h1]
  · by_cases h2 : rowPrice pi row ≤ 0
    · rwa [step_price_skip ni si pi st row h2]
    · rw [step_emit ni si pi st row h1 h2]
      obtain ⟨hseen, hnodup, hpos⟩ := h
      have hfresh := findFresh_not_mem (slugify (rowName ni row)) st.seen
      refine ⟨?_, ?_, ?_⟩
      · simp [hseen]
      · simp only [List.nodup_append, List.nodup_cons, List.nodup_nil]
        exact ⟨hnodup, by simp, by simpa using fun hx => hfresh hx⟩
      · intro i hi
        simp only [List.length_append, List.length_cons, List.length_nil] at hi
        rcases Nat.lt_succ_iff_lt_or_eq.mp (by omega : i < st.items.length + 1)
          with hlt | rfl
        · have hgl : ∀ (it : Item) (hh : i < (st.items ++ [it]).length),
              (st.items ++ [it]).get ⟨i, hh⟩ = st.items.get ⟨i, hlt⟩ := by
            intro it hh
            rw [List.get_eq_getElem, List.get_eq_getElem, List.getElem_append_left hlt]
          rw [hgl, List.take_append_of_le_length (by omega)]
          exact hpos i hlt
        · have hgl : ∀ (it : Item) (hh : st.items.length < (st.items ++ [it]).length),
              (st.items ++ [it]).get ⟨st.items.length, hh⟩ = it := by
            intro it hh
            rw [List.get_eq_getElem]
            simp
          rw [hgl, List.take_left]
          simp only []
          rw [← hseen]
  -- the identifier of the appended record is fresh for exactly the seen set

theorem processFrom_inv (ni si pi : Nat) (rows : List (List Cell)) :
    ∀ st : LoopState, stateInv st → stateInv (processFrom ni si pi st rows) := by
  induction rows with
  | nil => intro st h; exact h
  | cons r rows ih =>
    intro st h
    rw [processFrom_cons]
    exact ih _ (step_inv ni si pi st r h)

/-- C1 counterexample: on three rows named "a 2", "a", "a" the output ids
are "a-2", "a", "a-3".  The second and third records share the base slug
"a", yet their ids are "a" and "a-3" rather than "a" and "a-2" — the claimed
pattern `base`, `base-2`, `base-3`, … fails because the unrelated first
record already occupies "a-2". -/
theorem c1_counterexample :
    (processRows 0 1 2 c1Rows).map Item.id =
        [("a-2").data, ("a").data, ("a-3").data] ∧
      slugify (((processRows 0 1 2 c1Rows).get ⟨1, by decide⟩).name) =
        slugify (((processRows 0 1 2 c1Rows).get ⟨2, by decide⟩).name) ∧
      ((processRows 0 1 2 c1Rows).get ⟨2, by decide⟩).id ≠
        candSeq (slugify (((processRows 0 1 2 c1Rows).get ⟨2, by decide⟩).name)) 1 :=
  ⟨by decide, by decide, by decide⟩

/-- C1 amended: the ids of the emitted records are pairwise distinct, and
`seen_ids` holds exactly the ids assigned so far (each id is recorded before
the next row is processed); each record's id is the first candidate of the
sequence `base`, `base-2`, `base-3`, … — its base slug with increasing
numeric suffixes — that is not among the previously assigned ids.  When
several records share a base slug this yields `base`, `base-2`, `base-3`, …
in order of first appearance only if no other record's id already occupies
one of those candidates. -/
theorem c1_unique_ids (ni si pi : Nat) (rows : List (List Cell)) (i : Nat)
    (h : i < (processRows ni si pi rows).length) :
    ((processRows ni si pi rows).map Item.id).Nodup ∧
      (processFrom ni si pi ⟨[], []⟩ rows).seen = (processRows ni si pi rows).map Item.id ∧
      ∃ m, ((processRows ni si pi rows).get ⟨i, h⟩).id =
          candSeq (slugify (((processRows ni si pi rows).get ⟨i, h⟩).name)) m ∧
        candSeq (slugify (((processRows ni si pi rows).get ⟨i, h⟩).name)) m ∉
          ((processRows ni si pi rows).take i).map Item.id ∧
        ∀ j < m, candSeq (slugify (((processRows ni si pi rows).get ⟨i, h⟩).name)) j ∈
          ((processRows ni si pi rows).take i).map Item.id := by
  obtain ⟨hseen, hnodup, hpos⟩ :=
    processFrom_inv ni si pi rows ⟨[], []⟩ stateInv_empty
  refine ⟨hseen ▸ hnodup, hseen, ?_⟩
  have hid := hpos i h
  obtain ⟨m, hm1, hm2, hm3⟩ :=
    findFresh_spec (slugify (((processRows ni si pi rows).get ⟨i, h⟩).name))
      (((processRows ni si pi rows).take i).map Item.id)
  exact ⟨m, hid.trans hm1, hm2, hm3⟩

theorem c1_witness :
    ((processRows 0 1 2 c1Rows).map Item.id).Nodup ∧
      (processFrom 0 1 2 ⟨[], []⟩ c1Rows).seen = (processRows 0 1 2 c1Rows).map Item.id ∧
      ∃ m, ((processRows 0 1 2 c1Rows).get ⟨2, by decide⟩).id =
          candSeq (slugify (((processRows 0 1 2 c1Rows).get ⟨2, by decide⟩).name)) m ∧
        candSeq (slugify (((processRows 0 1 2 c1Rows).get ⟨2, by decide⟩).name)) m ∉
          ((processRows 0 1 2 c1Rows).take 2).map Item.id ∧
        ∀ j < m, candSeq (slugify (((processRows 0 1 2 c1Rows).get ⟨2, by decide⟩).name)) j ∈
          ((processRows 0 1 2 c1Rows).take 2).map Item.id :=
  c1_unique_ids 0 1 2 c1Rows 2 (by decide)

end MakeProducts
